import Mathlib

/-!
Verification of the release-tagging helper `scripts/create_skillsets_release.py`.

Strings are modelled as `List Char`. Python's `int()` (ASCII fragment: optional
surrounding whitespace, optional sign, digits with single interior underscores)
is modelled by `pyIntL`; Python's `str.split(sep)` by `splitOnChar`; Python's
`str(int)` by `intStr`. The external world (GitHub API reachable through the
`gh` CLI, plus local `git`) is modelled by a `World` record; the paginated tag
listing loop is given explicit fuel (the real loop runs until a terminating
page, which the theorems recover through a "terminal page" hypothesis).
-/

/-- ASCII decimal digit test (`0`-`9`), via code points for easy arithmetic. -/
def isAsciiDigit (c : Char) : Bool := 48 ≤ c.toNat && c.toNat ≤ 57

/-- ASCII letter test (`a`-`z`, `A`-`Z`), as used by the regex `[a-zA-Z]`. -/
def isAsciiAlpha (c : Char) : Bool :=
  (97 ≤ c.toNat && c.toNat ≤ 122) || (65 ≤ c.toNat && c.toNat ≤ 90)

/-- The six ASCII whitespace characters stripped by Python's `str.strip()`:
space, tab, newline, carriage return, vertical tab, form feed. -/
def isPySpace (c : Char) : Bool :=
  c.toNat = 32 || c.toNat = 9 || c.toNat = 10 || c.toNat = 13 ||
  c.toNat = 11 || c.toNat = 12

/-- Numeric value of an ASCII digit character. -/
def digitVal (c : Char) : Nat := c.toNat - 48

/-- Digit-run parser for the tail of a Python integer literal: digits with
single interior underscores (`1_000` is legal, `1__0`, `1_`, `_1` are not). -/
def pyDigitsAux : List Char → Nat → Option Nat
  | [], acc => some acc
  | c :: rest, acc =>
    if c = '_' then
      match rest with
      | c2 :: rest2 =>
        if isAsciiDigit c2 then pyDigitsAux rest2 (acc * 10 + digitVal c2) else none
      | [] => none
    else if isAsciiDigit c then pyDigitsAux rest (acc * 10 + digitVal c) else none

/-- Unsigned digit sequence of a Python integer literal (must start with a
digit, at least one digit). -/
def pyDigits : List Char → Option Nat
  | [] => none
  | c :: rest => if isAsciiDigit c then pyDigitsAux rest (digitVal c) else none

/-- Python `str.strip()` (both ends), ASCII whitespace. -/
def pyStripL (l : List Char) : List Char :=
  ((l.dropWhile isPySpace).reverse.dropWhile isPySpace).reverse

/-- Model of Python `int(s)` on ASCII input: strip whitespace, optional sign,
then an underscore-separated digit run; `none` models `ValueError`. -/
def pyIntL (l : List Char) : Option Int :=
  match pyStripL l with
  | [] => none
  | c :: rest =>
    if c = '+' then (pyDigits rest).map Int.ofNat
    else if c = '-' then (pyDigits rest).map (fun n => -Int.ofNat n)
    else (pyDigits (c :: rest)).map Int.ofNat

/-- Python `s.split(sep)` for a one-character separator: always returns a
non-empty list, empty string splits to `[""]`, adjacent separators produce
empty pieces. -/
def splitOnChar (sep : Char) : List Char → List (List Char)
  | [] => [[]]
  | c :: rest =>
    if c = sep then [] :: splitOnChar sep rest
    else
      match splitOnChar sep rest with
      | [] => [[c]]
      | h :: t => (c :: h) :: t

/-- Decimal digits of `n`, most significant first; `fuel`-guarded structural
recursion (any `fuel > n` gives the exact digits). -/
def natDigitsAux : Nat → Nat → List Char
  | 0, _ => []
  | f + 1, n =>
    if n < 10 then [Nat.digitChar n]
    else natDigitsAux f (n / 10) ++ [Nat.digitChar (n % 10)]

/-- Canonical decimal representation of a natural number (Python `str(n)`). -/
def natStr (n : Nat) : List Char := natDigitsAux (n + 1) n

/-- Python `str(i)` for an integer. -/
def intStr (i : Int) : List Char :=
  if i < 0 then '-' :: natStr i.natAbs else natStr i.toNat

/-! ## The program (translated from `scripts/create_skillsets_release.py`) -/

/-- Source constant `TAG_PREFIX = "skillsets-v"`. -/
def tagNamePre : List Char := "skillsets-v".toList

/-- The ref-name prelude filtered by `list_tags`:
`f"refs/tags/{TAG_PREFIX}" = "refs/tags/skillsets-v"`. -/
def refTagPre : List Char := "refs/tags/skillsets-v".toList

/-- `parse_semver(version)` (lines 337-346): take everything before the first
`-`, require exactly three dot-separated integer components. -/
def parse_semver (version : List Char) : Except (List Char) (Int × Int × Int) :=
  match splitOnChar '.' ((splitOnChar '-' version).headD []) with
  | [p0, p1, p2] =>
    match pyIntL p0, pyIntL p1, pyIntL p2 with
    | some a, some b, some c => Except.ok (a, b, c)
    | _, _, _ => Except.error (("Version components must be integers: ").toList ++ version)
  | _ => Except.error (("Unexpected version format: ").toList ++ version)

/-- `format_version(major, minor, patch)` (lines 349-351):
`f"{major}.{minor}.{patch}"`. -/
def format_version (major minor patch : Int) : List Char :=
  intStr major ++ '.' :: (intStr minor ++ '.' :: intStr patch)

/-- `format_version(*t)` for a parsed triple. -/
def format_version3 (t : Int × Int × Int) : List Char :=
  format_version t.1 t.2.1 t.2.2

/-- Python tuple comparison `<` on `(major, minor, patch)` (lexicographic). -/
def tripleLt (a b : Int × Int × Int) : Prop :=
  a.1 < b.1 ∨ (a.1 = b.1 ∧ (a.2.1 < b.2.1 ∨ (a.2.1 = b.2.1 ∧ a.2.2 < b.2.2)))

instance (a b : Int × Int × Int) : Decidable (tripleLt a b) := by
  unfold tripleLt; infer_instance

/-- Lexicographic `≤` on version triples (used to state maximality). -/
def tripleLe (a b : Int × Int × Int) : Prop :=
  a.1 < b.1 ∨ (a.1 = b.1 ∧ (a.2.1 < b.2.1 ∨ (a.2.1 = b.2.1 ∧ a.2.2 ≤ b.2.2)))

/-- Binary step of Python's `max()` over tuples: keep the current value on
ties, replace it when the new one is strictly greater. -/
def maxTriple (a b : Int × Int × Int) : Int × Int × Int :=
  if tripleLt a b then b else a

/-- The stable-version accumulation inside `get_latest_release_version`
(lines 318-328): keep tags without `-` that parse, in order, skipping
parse failures silently. -/
def stableTriples (tags : List (List Char)) : List (Int × Int × Int) :=
  tags.filterMap (fun version =>
    if version.contains '-' then none else (parse_semver version).toOption)

/-- `get_latest_release_version()` (lines 311-334), as a function of the
fetched tag list: `None` if no stable version, else `format_version(*max(...))`. -/
def get_latest_release_version (tags : List (List Char)) : Option (List Char) :=
  match stableTriples tags with
  | [] => none
  | v :: rest => some (format_version3 (rest.foldl maxTriple v))

/-- The highest stable triple itself (the value of `max(stable_versions)`). -/
def latestStableTriple (tags : List (List Char)) : Option (Int × Int × Int) :=
  match stableTriples tags with
  | [] => none
  | v :: rest => some (rest.foldl maxTriple v)

/-- The two modes under which `determine_version` is reached (`args.publish_release`
or `args.publish_next`; `--get-next-version` sets `publish_next` first). -/
inductive Mode
  | publishRelease
  | publishNext
deriving DecidableEq

/-- `determine_version(args)` (lines 247-284) as a function of the mode and the
tag list returned by `list_tags()`. -/
def determine_version (mode : Mode) (tags : List (List Char)) :
    Except (List Char) (List Char) :=
  match get_latest_release_version tags with
  | none =>
    match mode with
    | Mode.publishRelease => Except.ok (("1.0.0").toList)
    | Mode.publishNext => Except.ok (("1.0.0-next.1").toList)
  | some latest_version =>
    match parse_semver latest_version with
    | Except.error e => Except.error e
    | Except.ok (major, minor, patch) =>
      match mode with
      | Mode.publishRelease => Except.ok (format_version major (minor + 1) 0)
      | Mode.publishNext =>
        let nextPre := format_version major minor patch ++ ("-next.").toList
        let highest_next := tags.foldl
          (fun h version =>
            if nextPre.isPrefixOf version then
              match pyIntL (version.drop nextPre.length) with
              | some n => max h n
              | none => h
            else h)
          0
        Except.ok (nextPre ++ intStr (highest_next + 1))

/-! ## External world and the CLI driver -/

/-- A successfully parsed response from the tag-listing endpoint: either a JSON
array (each element abstracted to the string in its `"ref"` field, `""` when
missing) or some other JSON value. -/
inductive GhResponse
  | jlist (refs : List (List Char))
  | other

/-- The external collaborators of one run.  `pages i = none` models a
`ReleaseError` raised by `run_gh_api` for page `i` of the tag listing
(non-zero `gh` exit or undecodable JSON); `refLookup t = none` models the same
for the tag-ref existence lookup (e.g. a 404).  `gitTagOk` / `gitPushOk` tell
whether the two `run_git` invocations succeed. -/
structure World where
  pages : Nat → Option GhResponse
  refLookup : List Char → Option Unit
  gitTagOk : Bool
  gitPushOk : Bool

/-- The per-page extraction in `list_tags` (lines 298-302): keep refs starting
with `refs/tags/skillsets-v`, stripped of that prelude. -/
def extractTagRefs (refs : List (List Char)) : List (List Char) :=
  refs.filterMap (fun r =>
    if refTagPre.isPrefixOf r then some (r.drop refTagPre.length) else none)

/-- The `while True` pagination loop of `list_tags` (lines 287-308), with
explicit fuel.  A raised `ReleaseError` (`none`), a non-list response, or an
empty list stops the loop before extraction; a short page stops it after
extraction; a full page (100 items) continues with the next page. -/
def list_tags_go (w : World) : Nat → Nat → List (List Char) → List (List Char)
  | 0, _, acc => acc
  | fuel + 1, page, acc =>
    match w.pages page with
    | none => acc
    | some GhResponse.other => acc
    | some (GhResponse.jlist refs) =>
      if refs.isEmpty then acc
      else
        let acc2 := acc ++ extractTagRefs refs
        if refs.length < 100 then acc2
        else list_tags_go w fuel (page + 1) acc2

/-- `list_tags()`: pagination starts at page 1 with an empty accumulator. -/
def list_tags (w : World) (fuel : Nat) : List (List Char) :=
  list_tags_go w fuel 1 []

/-- `tag_exists(tag_name)` (lines 221-227): `True` iff the ref lookup call
succeeds; a `ReleaseError` is caught and turned into `False`. -/
def tag_exists (w : World) (tag_name : List Char) : Bool :=
  (w.refLookup tag_name).isSome

/-- The five mutually exclusive CLI commands after argument parsing. -/
inductive Command
  | getLatestStable
  | getNextVersion
  | publishNext
  | publishRelease
  | explicitVersion (v : List Char)

/-- Mutations performed against the tag namespace (the two `run_git` calls in
`create_and_push_tag`, lines 230-244). -/
inductive Mutation
  | createTag (name : List Char)
  | pushTag (name : List Char)
deriving DecidableEq

/-- Observable outcome of one `main` run: exit status, stdout lines, stderr
lines, and tag-namespace mutations performed. -/
structure RunResult where
  exit : Nat
  out : List (List Char)
  err : List (List Char)
  muts : List Mutation
deriving DecidableEq

/-- `print(f"ERROR: {error}", file=sys.stderr)` in the top-level handler. -/
def errLine (e : List Char) : List Char := ("ERROR: ").toList ++ e

/-- Full match of the regex body `\d+\.\d+\.\d+(-[a-zA-Z]+\.\d+)?` (line 133,
ASCII character classes) by deterministic maximal-munch descent: each `\d+` /
`[a-zA-Z]+` run is followed in the pattern by a character outside its class,
so greedy scanning is equivalent to the regex body. -/
def matchVersionBody (l : List Char) : Bool :=
  if (l.takeWhile isAsciiDigit).isEmpty then false
  else
    match l.dropWhile isAsciiDigit with
    | '.' :: r2 =>
      if (r2.takeWhile isAsciiDigit).isEmpty then false
      else
        match r2.dropWhile isAsciiDigit with
        | '.' :: r4 =>
          if (r4.takeWhile isAsciiDigit).isEmpty then false
          else
            match r4.dropWhile isAsciiDigit with
            | [] => true
            | '-' :: r6 =>
              if (r6.takeWhile isAsciiAlpha).isEmpty then false
              else
                match r6.dropWhile isAsciiAlpha with
                | '.' :: r8 => !r8.isEmpty && r8.all isAsciiDigit
                | _ => false
            | _ => false
        | _ => false
    | _ => false

/-- `re.match(r"^\d+\.\d+\.\d+(-[a-zA-Z]+\.\d+)?$", version)` (line 133).
In Python's default (non-MULTILINE) mode `$` matches at the end of the string
and also just before a single final newline, so the anchored pattern accepts
the body alone or the body followed by one trailing `\n`. -/
def matchVersionRe (l : List Char) : Bool :=
  match l.reverse with
  | '\n' :: rest => matchVersionBody rest.reverse
  | _ => matchVersionBody l

/-- Validation of an explicitly supplied `--version` (lines 130-134):
`lstrip("v")` (drops every leading `v`), then the regex check
`^\d+\.\d+\.\d+(-[a-zA-Z]+\.\d+)?$`. -/
def validate_explicit (v : List Char) : Except (List Char) (List Char) :=
  let version := v.dropWhile (fun c => c == 'v')
  if matchVersionRe version then Except.ok version
  else Except.error (("Invalid version format: ").toList ++ version)

/-- The version chosen for a publishing command (lines 130-136): explicit
validation for `--version`, otherwise `determine_version`. -/
def chosen_version (w : World) (fuel : Nat) : Command → Except (List Char) (List Char)
  | Command.explicitVersion v => validate_explicit v
  | Command.publishRelease => determine_version Mode.publishRelease (list_tags w fuel)
  | Command.publishNext => determine_version Mode.publishNext (list_tags w fuel)
  | Command.getNextVersion => determine_version Mode.publishNext (list_tags w fuel)
  | Command.getLatestStable => Except.error []

/-- Stdout lines printed by the dry-run branch (lines 147-152). -/
def dryRunLines (tag_name : List Char) : List (List Char) :=
  [("\n[DRY RUN] Would perform the following:").toList,
   ("  1. Create annotated tag ").toList ++ tag_name,
   ("  2. Push tag to origin").toList,
   ("  3. Trigger skillsets-release workflow").toList]

/-- Fixed placeholder for the `git tag` failure message: the actual text comes
from the external process's stderr, so its content is not determined by this
program. -/
def gitTagFailMsg : List Char := ("git tag failed").toList

/-- Fixed placeholder for the `git push` failure message (see `gitTagFailMsg`). -/
def gitPushFailMsg : List Char := ("git push failed").toList

/-- Abbreviation of the success banner (lines 157-172); its decorative content
is out of the specified scope and no claim inspects it. -/
def successLines (version : List Char) : List (List Char) :=
  [("Release ").toList ++ version ++ (" tag created successfully!").toList]

/-- The publish path of `main` (lines 138-177) after the version is chosen:
tag-existence precondition, dry-run short-circuit, then
`create_and_push_tag` with the top-level `ReleaseError` handler. -/
def publish_flow (w : World) (dry_run : Bool) (res : Except (List Char) (List Char)) :
    RunResult :=
  match res with
  | Except.error e => ⟨1, [], [errLine e], []⟩
  | Except.ok version =>
    let tag_name := tagNamePre ++ version
    if tag_exists w tag_name then
      ⟨1, [], [errLine (("Tag ").toList ++ tag_name ++ (" already exists").toList)], []⟩
    else
      let outs := [("Publishing version ").toList ++ version,
                   ("Tag name: ").toList ++ tag_name]
      if dry_run then ⟨0, outs ++ dryRunLines tag_name, [], []⟩
      else if w.gitTagOk then
        if w.gitPushOk then
          ⟨0, outs ++ successLines version, [], [Mutation.createTag tag_name, Mutation.pushTag tag_name]⟩
        else ⟨1, outs, [errLine gitPushFailMsg], [Mutation.createTag tag_name]⟩
      else ⟨1, outs, [errLine gitTagFailMsg], []⟩

/-- `main(argv)` (lines 110-177) for a parsed command: query flags first, then
the publish flow. -/
def mainRun (w : World) (fuel : Nat) (cmd : Command) (dry_run : Bool) : RunResult :=
  match cmd with
  | Command.getLatestStable =>
    match get_latest_release_version (list_tags w fuel) with
    | none => ⟨0, [("0.0.0").toList], [], []⟩
    | some latest => ⟨0, [latest], [], []⟩
  | Command.getNextVersion =>
    match chosen_version w fuel Command.getNextVersion with
    | Except.ok version => ⟨0, [version], [], []⟩
    | Except.error e => ⟨1, [], [errLine e], []⟩
  | Command.publishNext => publish_flow w dry_run (chosen_version w fuel Command.publishNext)
  | Command.publishRelease => publish_flow w dry_run (chosen_version w fuel Command.publishRelease)
  | Command.explicitVersion v => publish_flow w dry_run (chosen_version w fuel (Command.explicitVersion v))

/-! ## Claim-side (specification) definitions -/

/-- Claim side of C1: with no stable version return `1.0.0-next.1`; otherwise
with latest stable `(M, m, p)` form the prelude `M.m.p-next.`, collect the
integer-parsed suffixes of tags starting with it, and return
`M.m.p-next.{max+1}` (counter defaults to 0 when nothing was collected). -/
def devSnapshotSpec (tags : List (List Char)) : List Char :=
  match latestStableTriple tags with
  | none => ("1.0.0-next.1").toList
  | some t =>
    let pre := format_version3 t ++ ("-next.").toList
    let suffixes := tags.filterMap (fun tag =>
      if pre.isPrefixOf tag then pyIntL (tag.drop pre.length) else none)
    pre ++ intStr (suffixes.foldl max 0 + 1)

/-- Non-empty all-digit string (`\d+` in the version regex). -/
def Digits1 (l : List Char) : Prop := l ≠ [] ∧ ∀ c ∈ l, isAsciiDigit c = true

/-- Non-empty all-letter string (`[a-zA-Z]+` in the version regex). -/
def Alpha1 (l : List Char) : Prop := l ≠ [] ∧ ∀ c ∈ l, isAsciiAlpha c = true

/-- The language of the regex body `\d+\.\d+\.\d+(-[a-zA-Z]+\.\d+)?` as an
explicit decomposition. -/
def VersionReBody (l : List Char) : Prop :=
  ∃ a b c, Digits1 a ∧ Digits1 b ∧ Digits1 c ∧
    (l = a ++ '.' :: (b ++ '.' :: c) ∨
      ∃ lab num, Alpha1 lab ∧ Digits1 num ∧
        l = a ++ '.' :: (b ++ '.' :: (c ++ '-' :: (lab ++ '.' :: num))))

/-- The language accepted by `re.match` with the anchored pattern of line 133:
the body, or — because Python's `$` also matches just before a single final
newline — the body followed by one trailing `\n`. -/
def VersionReSpec (l : List Char) : Prop :=
  VersionReBody l ∨ ∃ l', l = l' ++ ['\n'] ∧ VersionReBody l'

/-- Claim side of C9: strip at most one leading `v` (the claim's reading of
"strips a leading 'v'"). -/
def stripOneLeadingV : List Char → List Char
  | 'v' :: rest => rest
  | l => l

/-- Version strings contributed by one page of the tag listing: refs whose
names start with `refs/tags/skillsets-v`, stripped; a failed fetch or a
non-list response contributes nothing. -/
def pageExtract (w : World) (i : Nat) : List (List Char) :=
  match w.pages i with
  | some (GhResponse.jlist refs) => extractTagRefs refs
  | _ => []

/-- A world in which every external call fails (`gh` errors on every endpoint)
but local `git` works. -/
def emptyWorld : World :=
  { pages := fun _ => none
    refLookup := fun _ => none
    gitTagOk := true
    gitPushOk := true }

/-- A world in which every tag-ref lookup succeeds (every tag "exists"). -/
def allTagsWorld : World :=
  { pages := fun _ => none
    refLookup := fun _ => some ()
    gitTagOk := true
    gitPushOk := true }

/-- A world with one full page (100 matching refs) followed by one short page:
used to exercise the pagination loop. -/
def twoPageWorld : World :=
  { pages := fun i =>
      if i = 1 then
        some (GhResponse.jlist (List.replicate 100 (("refs/tags/skillsets-v1.0.0").toList)))
      else if i = 2 then some (GhResponse.jlist [("refs/tags/skillsets-v1.1.0").toList])
      else none
    refLookup := fun _ => none
    gitTagOk := true
    gitPushOk := true }

/-! ## Helper lemmas: digits and decimal representations -/

lemma isAsciiDigit_digitChar {n : Nat} (h : n < 10) :
    isAsciiDigit (Nat.digitChar n) = true := by
  interval_cases n <;> decide

lemma digitVal_digitChar {n : Nat} (h : n < 10) : digitVal (Nat.digitChar n) = n := by
  interval_cases n <;> decide

lemma natDigitsAux_digits :
    ∀ f n, ∀ c ∈ natDigitsAux f n, isAsciiDigit c = true := by
  intro f
  induction f with
  | zero => intro n c hc; simp [natDigitsAux] at hc
  | succ f ih =>
    intro n c hc
    unfold natDigitsAux at hc
    by_cases h : n < 10
    · rw [if_pos h] at hc
      rw [List.mem_singleton] at hc
      subst hc
      exact isAsciiDigit_digitChar h
    · rw [if_neg h] at hc
      rw [List.mem_append, List.mem_singleton] at hc
      rcases hc with hc | hc
      · exact ih _ _ hc
      · subst hc
        exact isAsciiDigit_digitChar (Nat.mod_lt _ (by omega))

lemma natDigitsAux_ne_nil {f n : Nat} (h : 0 < f) : natDigitsAux f n ≠ [] := by
  cases f with
  | zero => omega
  | succ f =>
    unfold natDigitsAux
    by_cases h10 : n < 10
    · simp [h10]
    · simp [h10]

lemma natDigitsAux_foldl :
    ∀ f n acc, n < f →
      (natDigitsAux f n).foldl (fun a c => a * 10 + digitVal c) acc =
        acc * 10 ^ (natDigitsAux f n).length + n := by
  intro f
  induction f with
  | zero => intro n acc h; omega
  | succ f ih =>
    intro n acc h
    unfold natDigitsAux
    by_cases h10 : n < 10
    · rw [if_pos h10]
      simp [List.foldl, digitVal_digitChar h10]
    · rw [if_neg h10]
      have hdiv : n / 10 < n := Nat.div_lt_self (by omega) (by omega)
      have hf : n / 10 < f := by omega
      rw [List.foldl_append]
      simp only [List.foldl_cons, List.foldl_nil]
      rw [ih _ acc hf, digitVal_digitChar (Nat.mod_lt _ (by omega))]
      have hdm : 10 * (n / 10) + n % 10 = n := Nat.div_add_mod n 10
      rw [List.length_append, List.length_singleton]
      calc (acc * 10 ^ (natDigitsAux f (n / 10)).length + n / 10) * 10 + n % 10
          = acc * (10 ^ (natDigitsAux f (n / 10)).length * 10) +
              (10 * (n / 10) + n % 10) := by ring
        _ = acc * 10 ^ ((natDigitsAux f (n / 10)).length + 1) + n := by
              rw [hdm, pow_succ]

lemma pyDigitsAux_digits :
    ∀ (l : List Char) (acc : Nat), (∀ c ∈ l, isAsciiDigit c = true) →
      pyDigitsAux l acc = some (l.foldl (fun a c => a * 10 + digitVal c) acc) := by
  intro l
  induction l with
  | nil => intro acc _; rfl
  | cons c rest ih =>
    intro acc h
    have hc : isAsciiDigit c = true := h c (List.mem_cons_self _ _)
    have hne : c ≠ '_' := by
      intro e; subst e; exact absurd hc (by decide)
    unfold pyDigitsAux
    rw [if_neg hne, if_pos hc, List.foldl_cons]
    exact ih _ (fun x hx => h x (List.mem_cons_of_mem _ hx))

lemma pyDigits_digits {l : List Char} (hne : l ≠ [])
    (h : ∀ c ∈ l, isAsciiDigit c = true) :
    pyDigits l = some (l.foldl (fun a c => a * 10 + digitVal c) 0) := by
  cases l with
  | nil => exact absurd rfl hne
  | cons c rest =>
    have hc : isAsciiDigit c = true := h c (List.mem_cons_self _ _)
    simp only [pyDigits]
    rw [if_pos hc, pyDigitsAux_digits rest _ (fun x hx => h x (List.mem_cons_of_mem _ hx))]
    simp [List.foldl_cons]

lemma dropWhile_eq_self_of_all {p : Char → Bool} {l : List Char}
    (h : ∀ c ∈ l, p c = false) : l.dropWhile p = l := by
  cases l with
  | nil => rfl
  | cons c rest => simp [List.dropWhile_cons, h c (List.mem_cons_self _ _)]

lemma digit_not_pySpace {c : Char} (h : isAsciiDigit c = true) : isPySpace c = false := by
  simp only [isAsciiDigit, Bool.and_eq_true, decide_eq_true_eq] at h
  simp only [isPySpace, Bool.or_eq_false_iff, decide_eq_false_iff_not]
  omega

lemma pyStrip_of_digits {l : List Char} (h : ∀ c ∈ l, isAsciiDigit c = true) :
    pyStripL l = l := by
  unfold pyStripL
  rw [dropWhile_eq_self_of_all (fun c hc => digit_not_pySpace (h c hc))]
  rw [dropWhile_eq_self_of_all
    (fun c hc => digit_not_pySpace (h c (List.mem_reverse.mp hc)))]
  exact List.reverse_reverse l

lemma pyIntL_digits {l : List Char} (hne : l ≠ [])
    (h : ∀ c ∈ l, isAsciiDigit c = true) :
    pyIntL l = (pyDigits l).map Int.ofNat := by
  cases l with
  | nil => exact absurd rfl hne
  | cons c rest =>
    have hc : isAsciiDigit c = true := h c (List.mem_cons_self _ _)
    have hplus : c ≠ '+' := by intro e; subst e; exact absurd hc (by decide)
    have hminus : c ≠ '-' := by intro e; subst e; exact absurd hc (by decide)
    have hs : pyStripL (c :: rest) = c :: rest := pyStrip_of_digits h
    simp only [pyIntL, hs]
    rw [if_neg hplus, if_neg hminus]

lemma natStr_digits {n : Nat} : ∀ c ∈ natStr n, isAsciiDigit c = true :=
  natDigitsAux_digits (n + 1) n

lemma natStr_ne_nil {n : Nat} : natStr n ≠ [] := natDigitsAux_ne_nil (Nat.succ_pos n)

lemma pyDigits_natStr (n : Nat) : pyDigits (natStr n) = some n := by
  rw [pyDigits_digits natStr_ne_nil natStr_digits]
  unfold natStr
  rw [natDigitsAux_foldl (n + 1) n 0 (Nat.lt_succ_self n)]
  simp

lemma pyIntL_natStr (n : Nat) : pyIntL (natStr n) = some (n : Int) := by
  rw [pyIntL_digits natStr_ne_nil natStr_digits, pyDigits_natStr]
  rfl

lemma intStr_of_nonneg {i : Int} (h : 0 ≤ i) : intStr i = natStr i.toNat := by
  unfold intStr
  rw [if_neg (by omega)]

lemma intStr_digits {i : Int} (h : 0 ≤ i) : ∀ c ∈ intStr i, isAsciiDigit c = true := by
  rw [intStr_of_nonneg h]
  exact natStr_digits

lemma intStr_ne_nil {i : Int} (h : 0 ≤ i) : intStr i ≠ [] := by
  rw [intStr_of_nonneg h]
  exact natStr_ne_nil

lemma pyIntL_intStr {i : Int} (h : 0 ≤ i) : pyIntL (intStr i) = some i := by
  rw [intStr_of_nonneg h, pyIntL_natStr, Int.toNat_of_nonneg h]

/-! ## Helper lemmas: splitting -/

lemma splitOnChar_ne_nil (sep : Char) (l : List Char) : splitOnChar sep l ≠ [] := by
  induction l with
  | nil => simp [splitOnChar]
  | cons c rest ih =>
    by_cases hc : c = sep
    · simp [splitOnChar, hc]
    · cases hsp : splitOnChar sep rest with
      | nil => simp [splitOnChar, hc, hsp]
      | cons h t => simp [splitOnChar, hc, hsp]

lemma splitOnChar_nosep {sep : Char} {l : List Char} (h : ∀ c ∈ l, c ≠ sep) :
    splitOnChar sep l = [l] := by
  induction l with
  | nil => rfl
  | cons c rest ih =>
    have hc : c ≠ sep := h c (List.mem_cons_self _ _)
    have ihr : splitOnChar sep rest = [rest] :=
      ih (fun x hx => h x (List.mem_cons_of_mem _ hx))
    simp [splitOnChar, hc, ihr]

lemma splitOnChar_append {sep : Char} {xs : List Char} (ys : List Char)
    (h : ∀ c ∈ xs, c ≠ sep) :
    splitOnChar sep (xs ++ sep :: ys) = xs :: splitOnChar sep ys := by
  induction xs with
  | nil => simp [splitOnChar]
  | cons x xs ih =>
    have hx : x ≠ sep := h x (List.mem_cons_self _ _)
    have ihr := ih (fun c hc => h c (List.mem_cons_of_mem _ hc))
    simp [splitOnChar, hx, ihr]

lemma mem_takeWhile_pred {p : Char → Bool} :
    ∀ {l : List Char} {c : Char}, c ∈ l.takeWhile p → p c = true := by
  intro l
  induction l with
  | nil => intro c hc; simp [List.takeWhile] at hc
  | cons x rest ih =>
    intro c hc
    rw [List.takeWhile_cons] at hc
    by_cases hp : p x
    · rw [if_pos hp] at hc
      rcases List.mem_cons.mp hc with h | h
      · subst h; exact hp
      · exact ih h
    · rw [if_neg hp] at hc
      simp at hc

lemma splitOnChar_headD_takeWhile (sep : Char) (l : List Char) :
    (splitOnChar sep l).headD [] = l.takeWhile (fun c => c != sep) := by
  induction l with
  | nil => rfl
  | cons c rest ih =>
    by_cases hc : c = sep
    · subst hc
      simp [splitOnChar, List.takeWhile_cons]
    · cases hsp : splitOnChar sep rest with
      | nil => exact absurd hsp (splitOnChar_ne_nil _ _)
      | cons h t =>
        rw [hsp] at ih
        simp only [List.headD_cons] at ih
        simp [splitOnChar, hc, hsp, List.takeWhile_cons, ih]

lemma mem_splitOnChar_headD_ne {sep : Char} {l : List Char} {c : Char}
    (h : c ∈ (splitOnChar sep l).headD []) : c ≠ sep := by
  rw [splitOnChar_headD_takeWhile] at h
  have := mem_takeWhile_pred h
  simpa using this

lemma mem_of_mem_splitOnChar {sep : Char} :
    ∀ {l part : List Char}, part ∈ splitOnChar sep l → ∀ {c : Char}, c ∈ part → c ∈ l := by
  intro l
  induction l with
  | nil =>
    intro part hp c hc
    rw [show splitOnChar sep [] = [[]] from rfl, List.mem_singleton] at hp
    subst hp
    simp at hc
  | cons x rest ih =>
    intro part hp c hc
    have hsc : splitOnChar sep (x :: rest) =
        if x = sep then [] :: splitOnChar sep rest
        else
          match splitOnChar sep rest with
          | [] => [[x]]
          | h :: t => (x :: h) :: t := rfl
    by_cases hx : x = sep
    · rw [hsc, if_pos hx] at hp
      rcases List.mem_cons.mp hp with hp | hp
      · subst hp; simp at hc
      · exact List.mem_cons_of_mem _ (ih hp hc)
    · cases hsp : splitOnChar sep rest with
      | nil => exact absurd hsp (splitOnChar_ne_nil _ _)
      | cons h t =>
        rw [hsc, if_neg hx, hsp] at hp
        rcases List.mem_cons.mp hp with hp | hp
        · subst hp
          rcases List.mem_cons.mp hc with h1 | h1
          · subst h1; exact List.mem_cons_self _ _
          · exact List.mem_cons_of_mem _
              (ih (hsp ▸ List.mem_cons_self h t) h1)
        · exact List.mem_cons_of_mem _ (ih (hsp ▸ List.mem_cons_of_mem _ hp) hc)

/-! ## Helper lemmas: parse_semver and the round trip -/

lemma mem_pyStrip {l : List Char} {c : Char} (h : c ∈ pyStripL l) : c ∈ l := by
  unfold pyStripL at h
  have h1 := List.mem_reverse.mp h
  have h2 := (List.dropWhile_sublist _).mem h1
  have h3 := List.mem_reverse.mp h2
  exact (List.dropWhile_sublist _).mem h3

lemma pyIntL_nonneg {l : List Char} (hnd : ∀ c ∈ l, c ≠ '-') {i : Int}
    (h : pyIntL l = some i) : 0 ≤ i := by
  cases hst : pyStripL l with
  | nil =>
    simp only [pyIntL, hst] at h
    exact Option.noConfusion h
  | cons c rest =>
    simp only [pyIntL, hst] at h
    by_cases hplus : c = '+'
    · rw [if_pos hplus] at h
      rcases Option.map_eq_some'.mp h with ⟨n, _, hn⟩
      exact le_of_le_of_eq (Int.natCast_nonneg n) hn
    · rw [if_neg hplus] at h
      by_cases hminus : c = '-'
      · exact absurd hminus (hnd c (mem_pyStrip (hst ▸ List.mem_cons_self _ _)))
      · rw [if_neg hminus] at h
        rcases Option.map_eq_some'.mp h with ⟨n, _, hn⟩
        exact le_of_le_of_eq (Int.natCast_nonneg n) hn

lemma parse_semver_nonneg {v : List Char} {a b c : Int}
    (h : parse_semver v = Except.ok (a, b, c)) : 0 ≤ a ∧ 0 ≤ b ∧ 0 ≤ c := by
  unfold parse_semver at h
  split at h
  case h_2 => exact absurd h (by simp)
  case h_1 p0 p1 p2 heq =>
    have hbase : ∀ p ∈ splitOnChar '.' ((splitOnChar '-' v).headD []),
        ∀ ch ∈ p, ch ≠ '-' := by
      intro p hp ch hch
      exact mem_splitOnChar_headD_ne (mem_of_mem_splitOnChar hp hch)
    have h0 : p0 ∈ splitOnChar '.' ((splitOnChar '-' v).headD []) := by
      rw [heq]; simp
    have h1 : p1 ∈ splitOnChar '.' ((splitOnChar '-' v).headD []) := by
      rw [heq]; simp
    have h2 : p2 ∈ splitOnChar '.' ((splitOnChar '-' v).headD []) := by
      rw [heq]; simp
    split at h
    case h_2 => exact absurd h (by simp)
    case h_1 a' b' c' ha' hb' hc' =>
      rw [Except.ok.injEq, Prod.mk.injEq, Prod.mk.injEq] at h
      obtain ⟨he1, he2, he3⟩ := h
      subst he1; subst he2; subst he3
      exact ⟨pyIntL_nonneg (hbase _ h0) ha', pyIntL_nonneg (hbase _ h1) hb',
        pyIntL_nonneg (hbase _ h2) hc'⟩

lemma digit_ne_dot {c : Char} (h : isAsciiDigit c = true) : c ≠ '.' := by
  intro e; subst e; exact absurd h (by decide)

lemma digit_ne_dash {c : Char} (h : isAsciiDigit c = true) : c ≠ '-' := by
  intro e; subst e; exact absurd h (by decide)

lemma parse_format {a b c : Int} (ha : 0 ≤ a) (hb : 0 ≤ b) (hc : 0 ≤ c) :
    parse_semver (format_version a b c) = Except.ok (a, b, c) := by
  have hnodash : ∀ ch ∈ format_version a b c, ch ≠ '-' := by
    intro ch hch
    unfold format_version at hch
    rw [List.mem_append, List.mem_cons, List.mem_append, List.mem_cons] at hch
    rcases hch with h1 | h1 | h1 | h1 | h1
    · exact digit_ne_dash (intStr_digits ha ch h1)
    · subst h1; decide
    · exact digit_ne_dash (intStr_digits hb ch h1)
    · subst h1; decide
    · exact digit_ne_dash (intStr_digits hc ch h1)
  have hsplit1 : splitOnChar '-' (format_version a b c) = [format_version a b c] :=
    splitOnChar_nosep hnodash
  have hsplit2 : splitOnChar '.' (format_version a b c) =
      [intStr a, intStr b, intStr c] := by
    unfold format_version
    rw [splitOnChar_append _ (fun ch hch => digit_ne_dot (intStr_digits ha ch hch))]
    rw [splitOnChar_append _ (fun ch hch => digit_ne_dot (intStr_digits hb ch hch))]
    rw [splitOnChar_nosep (fun ch hch => digit_ne_dot (intStr_digits hc ch hch))]
  have hA : pyIntL (intStr a) = some a := pyIntL_intStr ha
  have hB : pyIntL (intStr b) = some b := pyIntL_intStr hb
  have hC : pyIntL (intStr c) = some c := pyIntL_intStr hc
  unfold parse_semver
  rw [hsplit1]
  simp only [List.headD_cons]
  rw [hsplit2]
  simp only [hA, hB, hC]

/-! ## Helper lemmas: the lexicographic maximum -/

lemma tripleLe_refl (a : Int × Int × Int) : tripleLe a a := by
  unfold tripleLe
  exact Or.inr ⟨rfl, Or.inr ⟨rfl, le_refl _⟩⟩

lemma tripleLe_trans {a b c : Int × Int × Int}
    (h1 : tripleLe a b) (h2 : tripleLe b c) : tripleLe a c := by
  obtain ⟨a1, a2, a3⟩ := a
  obtain ⟨b1, b2, b3⟩ := b
  obtain ⟨c1, c2, c3⟩ := c
  unfold tripleLe at *
  simp only at *
  omega

lemma tripleLe_of_lt {a b : Int × Int × Int} (h : tripleLt a b) : tripleLe a b := by
  obtain ⟨a1, a2, a3⟩ := a
  obtain ⟨b1, b2, b3⟩ := b
  unfold tripleLt at h
  unfold tripleLe
  simp only at *
  omega

lemma tripleLe_of_not_lt {a b : Int × Int × Int} (h : ¬ tripleLt a b) : tripleLe b a := by
  obtain ⟨a1, a2, a3⟩ := a
  obtain ⟨b1, b2, b3⟩ := b
  unfold tripleLt at h
  unfold tripleLe
  simp only at *
  omega

lemma maxTriple_le_left (a b : Int × Int × Int) : tripleLe a (maxTriple a b) := by
  unfold maxTriple
  split
  case isTrue h => exact tripleLe_of_lt h
  case isFalse h => exact tripleLe_refl a

lemma maxTriple_le_right (a b : Int × Int × Int) : tripleLe b (maxTriple a b) := by
  unfold maxTriple
  split
  case isTrue h => exact tripleLe_refl b
  case isFalse h => exact tripleLe_of_not_lt h

lemma maxTriple_mem (a b : Int × Int × Int) : maxTriple a b = a ∨ maxTriple a b = b := by
  unfold maxTriple
  split
  · exact Or.inr rfl
  · exact Or.inl rfl

lemma foldl_maxTriple_spec :
    ∀ (rest : List (Int × Int × Int)) (v : Int × Int × Int),
      rest.foldl maxTriple v ∈ v :: rest ∧
      tripleLe v (rest.foldl maxTriple v) ∧
      ∀ u ∈ rest, tripleLe u (rest.foldl maxTriple v) := by
  intro rest
  induction rest with
  | nil =>
    intro v
    refine ⟨by simp, tripleLe_refl v, by simp⟩
  | cons x xs ih =>
    intro v
    rw [List.foldl_cons]
    obtain ⟨hmem, hle, hub⟩ := ih (maxTriple v x)
    refine ⟨?_, tripleLe_trans (maxTriple_le_left v x) hle, ?_⟩
    · rcases List.mem_cons.mp hmem with h | h
      · rw [h]
        rcases maxTriple_mem v x with hm | hm <;> rw [hm] <;> simp
      · exact List.mem_cons_of_mem _ (List.mem_cons_of_mem _ h)
    · intro u hu
      rcases List.mem_cons.mp hu with h | h
      · rw [h]
        exact tripleLe_trans (maxTriple_le_right v x) hle
      · exact hub u h

lemma get_latest_eq_map (tags : List (List Char)) :
    get_latest_release_version tags = (latestStableTriple tags).map format_version3 := by
  cases h : stableTriples tags with
  | nil => simp [get_latest_release_version, latestStableTriple, h]
  | cons v rest => simp [get_latest_release_version, latestStableTriple, h]

lemma stableTriples_mem_parse {tags : List (List Char)} {t : Int × Int × Int}
    (h : t ∈ stableTriples tags) :
    ∃ tag ∈ tags, parse_semver tag = Except.ok t := by
  unfold stableTriples at h
  rcases List.mem_filterMap.mp h with ⟨tag, htag, hf⟩
  by_cases hd : tag.contains '-'
  · rw [if_pos hd] at hf
    exact Option.noConfusion hf
  · rw [if_neg hd] at hf
    refine ⟨tag, htag, ?_⟩
    cases hp : parse_semver tag with
    | ok u =>
      rw [hp] at hf
      simp [Except.toOption] at hf
      rw [hf]
    | error e =>
      rw [hp] at hf
      simp [Except.toOption] at hf

lemma stableTriples_nonneg {tags : List (List Char)} {t : Int × Int × Int}
    (h : t ∈ stableTriples tags) : 0 ≤ t.1 ∧ 0 ≤ t.2.1 ∧ 0 ≤ t.2.2 := by
  rcases stableTriples_mem_parse h with ⟨tag, _, hp⟩
  obtain ⟨a, b, c⟩ := t
  exact parse_semver_nonneg hp

lemma latestStableTriple_nonneg {tags : List (List Char)} {t : Int × Int × Int}
    (h : latestStableTriple tags = some t) : 0 ≤ t.1 ∧ 0 ≤ t.2.1 ∧ 0 ≤ t.2.2 := by
  unfold latestStableTriple at h
  cases hs : stableTriples tags with
  | nil => rw [hs] at h; exact Option.noConfusion h
  | cons v rest =>
    rw [hs] at h
    rw [Option.some.injEq] at h
    subst h
    have hmem := (foldl_maxTriple_spec rest v).1
    exact stableTriples_nonneg (hs ▸ hmem)

lemma latestStableTriple_mem {tags : List (List Char)} {t : Int × Int × Int}
    (h : latestStableTriple tags = some t) :
    t ∈ stableTriples tags ∧ ∀ u ∈ stableTriples tags, tripleLe u t := by
  unfold latestStableTriple at h
  cases hs : stableTriples tags with
  | nil => rw [hs] at h; exact Option.noConfusion h
  | cons v rest =>
    rw [hs] at h
    rw [Option.some.injEq] at h
    subst h
    obtain ⟨hmem, hle, hub⟩ := foldl_maxTriple_spec rest v
    refine ⟨hs ▸ hmem, ?_⟩
    intro u hu
    rcases List.mem_cons.mp hu with h1 | h1
    · exact h1 ▸ hle
    · exact hub u h1

/-! ## Helper lemmas: the prerelease-counter scan -/

lemma foldl_scan_eq (tags : List (List Char)) (pre : List Char) :
    ∀ init : Int,
      tags.foldl (fun h version =>
        if pre.isPrefixOf version then
          match pyIntL (version.drop pre.length) with
          | some n => max h n
          | none => h
        else h) init
      = (tags.filterMap (fun tag =>
          if pre.isPrefixOf tag then pyIntL (tag.drop pre.length) else none)).foldl
          max init := by
  induction tags with
  | nil => intro init; rfl
  | cons x xs ih =>
    intro init
    rw [List.foldl_cons, List.filterMap_cons]
    by_cases hp : pre.isPrefixOf x
    · rw [if_pos hp, if_pos hp]
      cases hpy : pyIntL (x.drop pre.length) with
      | none => exact ih init
      | some n =>
        rw [List.foldl_cons]
        exact ih (max init n)
    · rw [if_neg hp, if_neg hp]
      exact ih init

/-! ## Helper lemmas: the version regex -/

lemma list_isEmpty_false {α : Type} {l : List α} (h : l ≠ []) : l.isEmpty = false := by
  cases l with
  | nil => exact absurd rfl h
  | cons c rest => rfl

lemma list_ne_nil_of_isEmpty_false {α : Type} {l : List α} (h : l.isEmpty = false) :
    l ≠ [] := by
  cases l with
  | nil => simp at h
  | cons c rest => simp

lemma takeWhile_all_eq {p : Char → Bool} :
    ∀ {xs : List Char}, (∀ c ∈ xs, p c = true) →
      xs.takeWhile p = xs ∧ xs.dropWhile p = [] := by
  intro xs
  induction xs with
  | nil => intro _; exact ⟨rfl, rfl⟩
  | cons x rest ih =>
    intro h
    have hx : p x = true := h x (List.mem_cons_self _ _)
    have hr := ih (fun c hc => h c (List.mem_cons_of_mem _ hc))
    constructor
    · rw [List.takeWhile_cons, if_pos hx, hr.1]
    · rw [List.dropWhile_cons, if_pos hx, hr.2]

lemma takeWhile_append_stop {p : Char → Bool} {x : Char} (hx : p x = false) :
    ∀ {xs : List Char} (ys : List Char), (∀ c ∈ xs, p c = true) →
      (xs ++ x :: ys).takeWhile p = xs ∧ (xs ++ x :: ys).dropWhile p = x :: ys := by
  intro xs
  induction xs with
  | nil =>
    intro ys _
    constructor
    · rw [List.nil_append, List.takeWhile_cons, if_neg (by simp [hx])]
    · rw [List.nil_append, List.dropWhile_cons, if_neg (by simp [hx])]
  | cons z rest ih =>
    intro ys h
    have hz : p z = true := h z (List.mem_cons_self _ _)
    have hr := ih ys (fun c hc => h c (List.mem_cons_of_mem _ hc))
    constructor
    · rw [List.cons_append, List.takeWhile_cons, if_pos hz, hr.1]
    · rw [List.cons_append, List.dropWhile_cons, if_pos hz, hr.2]

lemma matchVersionBody_iff (l : List Char) : matchVersionBody l = true ↔ VersionReBody l := by
  constructor
  · intro h
    unfold matchVersionBody at h
    split at h
    case isTrue => exact absurd h (by simp)
    case isFalse hne1 =>
    split at h
    case h_2 => exact absurd h (by simp)
    case h_1 r2 heq1 =>
    split at h
    case isTrue => exact absurd h (by simp)
    case isFalse hne2 =>
    split at h
    case h_2 => exact absurd h (by simp)
    case h_1 r4 heq2 =>
    split at h
    case isTrue => exact absurd h (by simp)
    case isFalse hne3 =>
    have ha : Digits1 (l.takeWhile isAsciiDigit) :=
      ⟨list_ne_nil_of_isEmpty_false (by simpa using hne1),
       fun c hc => mem_takeWhile_pred hc⟩
    have hb : Digits1 (r2.takeWhile isAsciiDigit) :=
      ⟨list_ne_nil_of_isEmpty_false (by simpa using hne2),
       fun c hc => mem_takeWhile_pred hc⟩
    have hc3 : Digits1 (r4.takeWhile isAsciiDigit) :=
      ⟨list_ne_nil_of_isEmpty_false (by simpa using hne3),
       fun c hc => mem_takeWhile_pred hc⟩
    have hdl : l = l.takeWhile isAsciiDigit ++ '.' :: r2 := by
      conv_lhs => rw [← List.takeWhile_append_dropWhile isAsciiDigit l]
      rw [heq1]
    have hdr2 : r2 = r2.takeWhile isAsciiDigit ++ '.' :: r4 := by
      conv_lhs => rw [← List.takeWhile_append_dropWhile isAsciiDigit r2]
      rw [heq2]
    split at h
    case h_3 => exact absurd h (by simp)
    case h_1 heq3 =>
      have hdr4 : r4 = r4.takeWhile isAsciiDigit := by
        conv_lhs => rw [← List.takeWhile_append_dropWhile isAsciiDigit r4]
        rw [heq3, List.append_nil]
      refine ⟨l.takeWhile isAsciiDigit, r2.takeWhile isAsciiDigit,
        r4.takeWhile isAsciiDigit, ha, hb, hc3, Or.inl ?_⟩
      conv_lhs => rw [hdl, hdr2, hdr4]
    case h_2 r6 heq3 =>
      split at h
      case isTrue => exact absurd h (by simp)
      case isFalse hne4 =>
      split at h
      case h_2 => exact absurd h (by simp)
      case h_1 r8 heq4 =>
      rw [Bool.and_eq_true, Bool.not_eq_true'] at h
      have hlab : Alpha1 (r6.takeWhile isAsciiAlpha) :=
        ⟨list_ne_nil_of_isEmpty_false (by simpa using hne4),
         fun c hc => mem_takeWhile_pred hc⟩
      have hnum : Digits1 r8 :=
        ⟨list_ne_nil_of_isEmpty_false h.1,
         fun c hc => by
          have := List.all_eq_true.mp h.2 c hc
          simpa using this⟩
      have hdr4 : r4 = r4.takeWhile isAsciiDigit ++ '-' :: r6 := by
        conv_lhs => rw [← List.takeWhile_append_dropWhile isAsciiDigit r4]
        rw [heq3]
      have hdr6 : r6 = r6.takeWhile isAsciiAlpha ++ '.' :: r8 := by
        conv_lhs => rw [← List.takeWhile_append_dropWhile isAsciiAlpha r6]
        rw [heq4]
      refine ⟨l.takeWhile isAsciiDigit, r2.takeWhile isAsciiDigit,
        r4.takeWhile isAsciiDigit, ha, hb, hc3, Or.inr
        ⟨r6.takeWhile isAsciiAlpha, r8, hlab, hnum, ?_⟩⟩
      conv_lhs => rw [hdl, hdr2, hdr4, hdr6]
  · intro hspec
    rcases hspec with ⟨a, b, c, ha, hb, hc, hshape⟩
    rcases hshape with hshape | ⟨lab, num, hlab, hnum, hshape⟩
    · subst hshape
      have s1 := takeWhile_append_stop (p := isAsciiDigit) (x := '.') (by decide)
        (b ++ '.' :: c) ha.2
      have s2 := takeWhile_append_stop (p := isAsciiDigit) (x := '.') (by decide)
        c hb.2
      have s3 := takeWhile_all_eq hc.2
      unfold matchVersionBody
      rw [s1.1, s1.2, list_isEmpty_false ha.1]
      simp only [Bool.false_eq_true, if_false]
      rw [s2.1, s2.2, list_isEmpty_false hb.1]
      simp only [Bool.false_eq_true, if_false]
      rw [s3.1, s3.2, list_isEmpty_false hc.1]
      simp
    · subst hshape
      have s1 := takeWhile_append_stop (p := isAsciiDigit) (x := '.') (by decide)
        (b ++ '.' :: (c ++ '-' :: (lab ++ '.' :: num))) ha.2
      have s2 := takeWhile_append_stop (p := isAsciiDigit) (x := '.') (by decide)
        (c ++ '-' :: (lab ++ '.' :: num)) hb.2
      have s3 := takeWhile_append_stop (p := isAsciiDigit) (x := '-') (by decide)
        (lab ++ '.' :: num) hc.2
      have s4 := takeWhile_append_stop (p := isAsciiAlpha) (x := '.') (by decide)
        num hlab.2
      unfold matchVersionBody
      rw [s1.1, s1.2, list_isEmpty_false ha.1]
      simp only [Bool.false_eq_true, if_false]
      rw [s2.1, s2.2, list_isEmpty_false hb.1]
      simp only [Bool.false_eq_true, if_false]
      rw [s3.1, s3.2, list_isEmpty_false hc.1]
      simp only [Bool.false_eq_true, if_false]
      rw [s4.1, s4.2, list_isEmpty_false hlab.1]
      simp only [Bool.false_eq_true, if_false]
      rw [list_isEmpty_false hnum.1]
      simp only [Bool.not_false, Bool.true_and]
      exact List.all_eq_true.mpr (fun ch hch => by simpa using hnum.2 ch hch)

lemma versionReBody_ends_digit {l : List Char} (h : VersionReBody l) :
    ∃ X d, l = X ++ [d] ∧ isAsciiDigit d = true := by
  rcases h with ⟨a, b, c, _, _, hc, hshape | ⟨lab, num, _, hnum, hshape⟩⟩
  · have hcne : c ≠ [] := hc.1
    refine ⟨a ++ '.' :: (b ++ '.' :: c.dropLast), c.getLast hcne, ?_,
      hc.2 _ (List.getLast_mem hcne)⟩
    rw [hshape]
    conv_lhs => rw [← List.dropLast_append_getLast hcne]
    simp [List.append_assoc]
  · have hnne : num ≠ [] := hnum.1
    refine ⟨a ++ '.' :: (b ++ '.' :: (c ++ '-' :: (lab ++ '.' :: num.dropLast))),
      num.getLast hnne, ?_, hnum.2 _ (List.getLast_mem hnne)⟩
    rw [hshape]
    conv_lhs => rw [← List.dropLast_append_getLast hnne]
    simp [List.append_assoc]

lemma versionReBody_no_newline {l : List Char} (h : VersionReBody (l ++ ['\n'])) :
    False := by
  rcases versionReBody_ends_digit h with ⟨X, d, heq, hd⟩
  have hrev := congrArg List.reverse heq
  simp only [List.reverse_append, List.reverse_singleton, List.singleton_append] at hrev
  injection hrev with h1 h2
  rw [← h1] at hd
  exact absurd hd (by decide)

lemma matchVersionRe_iff (l : List Char) : matchVersionRe l = true ↔ VersionReSpec l := by
  cases hr : l.reverse with
  | nil =>
    have hlnil : l = [] := by
      have := congrArg List.reverse hr
      simpa using this
    simp only [matchVersionRe, hr]
    constructor
    · intro h
      exact Or.inl ((matchVersionBody_iff _).mp h)
    · intro h
      rcases h with h | ⟨l', hl', hb⟩
      · exact (matchVersionBody_iff _).mpr h
      · rw [hlnil] at hl'
        exact absurd hl'.symm (by simp)
  | cons c rest =>
    by_cases hc : c = '\n'
    · subst hc
      simp only [matchVersionRe, hr]
      have hl : l = rest.reverse ++ ['\n'] := by
        have := congrArg List.reverse hr
        simpa using this
      constructor
      · intro h
        exact Or.inr ⟨rest.reverse, hl, (matchVersionBody_iff _).mp h⟩
      · intro h
        rcases h with h | ⟨l', hl', hb⟩
        · rw [hl] at h
          exact (versionReBody_no_newline h).elim
        · have h2 : l' ++ ['\n'] = rest.reverse ++ ['\n'] := hl'.symm.trans hl
          have h3 := congrArg List.reverse h2
          simp only [List.reverse_append, List.reverse_singleton,
            List.singleton_append] at h3
          injection h3 with h4 h5
          have h6 : l' = rest.reverse := by
            have := congrArg List.reverse h5
            simpa using this
          rw [← h6]
          exact (matchVersionBody_iff _).mpr hb
    · simp only [matchVersionRe, hr]
      split
      next r heq =>
        injection heq with hceq hrest
        exact absurd hceq hc
      next =>
        constructor
        · intro h
          exact Or.inl ((matchVersionBody_iff _).mp h)
        · intro h
          rcases h with h | ⟨l', hl', hb⟩
          · exact (matchVersionBody_iff _).mpr h
          · exfalso
            apply hc
            have h2 : l.reverse = '\n' :: l'.reverse := by
              rw [hl']
              simp
            rw [hr] at h2
            injection h2

/-! ## Helper lemmas: the pagination loop -/

lemma list_tags_go_spec :
    ∀ (k : Nat) (w : World) (fuel page : Nat) (acc : List (List Char)),
      (∀ i, page ≤ i → i < page + k →
        ∃ refs, w.pages i = some (GhResponse.jlist refs) ∧ refs.length = 100) →
      (w.pages (page + k) = none ∨ w.pages (page + k) = some GhResponse.other ∨
        ∃ refs, w.pages (page + k) = some (GhResponse.jlist refs) ∧ refs.length < 100) →
      k < fuel →
      list_tags_go w fuel page acc =
        acc ++ (List.range' page (k + 1)).flatMap (pageExtract w) := by
  intro k
  induction k with
  | zero =>
    intro w fuel page acc hfull hterm hfuel
    cases fuel with
    | zero => omega
    | succ f =>
      rw [Nat.add_zero] at hterm
      rcases hterm with ht | ht | ⟨refs, ht, hlen⟩
      · simp [list_tags_go, ht, pageExtract, List.range']
      · simp [list_tags_go, ht, pageExtract, List.range']
      · by_cases he : refs.isEmpty = true
        · have hrefs : refs = [] := by
            cases refs with
            | nil => rfl
            | cons x xs => simp at he
          subst hrefs
          simp [list_tags_go, ht, pageExtract, List.range', extractTagRefs]
        · simp only [list_tags_go, ht]
          rw [if_neg he]
          simp only [if_pos hlen]
          simp [pageExtract, ht, List.range']
  | succ k ih =>
    intro w fuel page acc hfull hterm hfuel
    cases fuel with
    | zero => omega
    | succ f =>
      obtain ⟨refs, hpage, hlen⟩ := hfull page (le_refl _) (by omega)
      have hne : refs ≠ [] := by
        intro e
        rw [e] at hlen
        simp at hlen
      simp only [list_tags_go, hpage]
      rw [if_neg (by rw [list_isEmpty_false hne]; simp), if_neg (by omega)]
      have hfull2 : ∀ i, page + 1 ≤ i → i < (page + 1) + k →
          ∃ refs, w.pages i = some (GhResponse.jlist refs) ∧ refs.length = 100 := by
        intro i hi1 hi2
        exact hfull i (by omega) (by omega)
      have hterm2 : w.pages ((page + 1) + k) = none ∨
          w.pages ((page + 1) + k) = some GhResponse.other ∨
          ∃ refs, w.pages ((page + 1) + k) = some (GhResponse.jlist refs) ∧
            refs.length < 100 := by
        have heq : (page + 1) + k = page + (k + 1) := by omega
        rw [heq]
        exact hterm
      rw [ih w f (page + 1) (acc ++ extractTagRefs refs) hfull2 hterm2 (by omega)]
      rw [List.range'_succ page (k + 1) 1]
      rw [List.flatMap_cons, List.append_assoc]
      have hpe : pageExtract w page = extractTagRefs refs := by
        simp [pageExtract, hpage]
      rw [hpe]

/-- `list_tags` under a fully-described world: pages `1..n-1` full (exactly 100
items), page `n` terminal (fetch failure, non-list, or fewer than 100 items);
the result is the in-order concatenation of the matching stripped refs of
pages `1..n`. -/
lemma list_tags_pages (w : World) (fuel n : Nat) (h1 : 1 ≤ n)
    (hfull : ∀ i, 1 ≤ i → i < n →
      ∃ refs, w.pages i = some (GhResponse.jlist refs) ∧ refs.length = 100)
    (hterm : w.pages n = none ∨ w.pages n = some GhResponse.other ∨
      ∃ refs, w.pages n = some (GhResponse.jlist refs) ∧ refs.length < 100)
    (hfuel : n ≤ fuel) :
    list_tags w fuel = (List.range' 1 n).flatMap (pageExtract w) := by
  unfold list_tags
  have hn : n = (n - 1) + 1 := by omega
  have := list_tags_go_spec (n - 1) w fuel 1 []
    (fun i hi1 hi2 => hfull i hi1 (by omega))
    (by rw [show 1 + (n - 1) = n by omega]; exact hterm)
    (by omega)
  rw [this, List.nil_append, ← hn]

/-- Converts `isOk` facts into the existence of an `ok` payload. -/
lemma exceptIsOk_iff {ε α : Type} (x : Except ε α) :
    x.isOk = true ↔ ∃ a, x = Except.ok a := by
  cases x <;> simp [Except.isOk, Except.toBool]

/-! ## Claims -/

/-- C1: in devSnapshot (`publish_next`) mode, `determine_version` returns
`1.0.0-next.1` when no stable version exists and otherwise `M.m.p-next.{max+1}`
where `(M, m, p)` is the latest stable version and `max` is the largest
integer-parsed suffix over tags starting with the exact `M.m.p-next.` prelude
(0 when none parse; other labels such as `-nightly.` never match). -/
theorem claim_devsnapshot_version (tags : List (List Char)) :
    determine_version Mode.publishNext tags = Except.ok (devSnapshotSpec tags) := by
  cases hl : latestStableTriple tags with
  | none =>
    have hg : get_latest_release_version tags = none := by
      rw [get_latest_eq_map, hl]
      rfl
    simp [determine_version, devSnapshotSpec, hg, hl]
  | some t =>
    have hg : get_latest_release_version tags = some (format_version3 t) := by
      rw [get_latest_eq_map, hl]
      rfl
    obtain ⟨hna, hnb, hnc⟩ := latestStableTriple_nonneg hl
    obtain ⟨a, b, c⟩ := t
    have hparse : parse_semver (format_version a b c) = Except.ok (a, b, c) :=
      parse_format hna hnb hnc
    simp only [determine_version, hg, format_version3, hparse, devSnapshotSpec, hl]
    rw [foldl_scan_eq]

/-- C2: in stableRelease (`publish_release`) mode, `determine_version` returns
`1.0.0` when no stable version exists and otherwise `M.(m+1).0` for the latest
stable `(M, m, p)`: minor bumped, patch reset to 0, major untouched, whatever
other tags exist. -/
theorem claim_stablerelease_version (tags : List (List Char)) :
    determine_version Mode.publishRelease tags =
      Except.ok (match latestStableTriple tags with
        | none => ("1.0.0").toList
        | some t => format_version t.1 (t.2.1 + 1) 0) := by
  cases hl : latestStableTriple tags with
  | none =>
    have hg : get_latest_release_version tags = none := by
      rw [get_latest_eq_map, hl]
      rfl
    simp [determine_version, hg]
  | some t =>
    have hg : get_latest_release_version tags = some (format_version3 t) := by
      rw [get_latest_eq_map, hl]
      rfl
    obtain ⟨hna, hnb, hnc⟩ := latestStableTriple_nonneg hl
    obtain ⟨a, b, c⟩ := t
    have hparse : parse_semver (format_version a b c) = Except.ok (a, b, c) :=
      parse_format hna hnb hnc
    simp only [determine_version, hg, format_version3, hparse]

/-- C3: `get_latest_release_version` is `none` exactly when no stable triple
exists, and otherwise formats a member of the stable triples (tags without `-`
that parse; unparseable tags skipped) that is an upper bound in lexicographic
order; on the spec's example the prerelease `2.0.0-next.1` does not count as
stable, so the result is `1.2.0`. -/
theorem claim_latest_stable_max (tags : List (List Char)) :
    (get_latest_release_version tags = none ↔ stableTriples tags = []) ∧
    (∀ s, get_latest_release_version tags = some s →
      ∃ t, t ∈ stableTriples tags ∧ s = format_version3 t ∧
        ∀ u ∈ stableTriples tags, tripleLe u t) ∧
    get_latest_release_version
      [("1.0.0").toList, ("1.2.0").toList, ("1.1.5").toList, ("2.0.0-next.1").toList] =
      some (("1.2.0").toList) := by
  refine ⟨⟨?_, ?_⟩, ?_, by decide⟩
  · intro h
    cases hs : stableTriples tags with
    | nil => rfl
    | cons v rest =>
      unfold get_latest_release_version at h
      rw [hs] at h
      exact Option.noConfusion h
  · intro h
    unfold get_latest_release_version
    rw [h]
  · intro s hsome
    rw [get_latest_eq_map] at hsome
    cases hlt : latestStableTriple tags with
    | none =>
      rw [hlt] at hsome
      exact Option.noConfusion hsome
    | some t =>
      rw [hlt] at hsome
      rw [Option.map_some', Option.some.injEq] at hsome
      obtain ⟨hmem, hub⟩ := latestStableTriple_mem hlt
      exact ⟨t, hmem, hsome.symm, hub⟩

/-- C3 witness: the characterization applied to a concrete tag list. -/
theorem claim_latest_stable_max_witness :
    ∃ t, t ∈ stableTriples [("1.0.0").toList, ("1.2.0").toList] ∧
      ("1.2.0").toList = format_version3 t ∧
      ∀ u ∈ stableTriples [("1.0.0").toList, ("1.2.0").toList], tripleLe u t :=
  (claim_latest_stable_max [("1.0.0").toList, ("1.2.0").toList]).2.1
    (("1.2.0").toList) (by decide)

/-- C4 counterexample: with a Tag Source whose every page fetch raises and a
tag-existence lookup that also raises, a `--publish-next` run still finishes
with exit status 0 and creates and pushes the tag `skillsets-v1.0.0-next.1`:
the listing failure is absorbed into an empty tag list and the lookup failure
into "tag does not exist", contradicting the claim that such failures abort
the run. -/
theorem claim_error_propagation_counterexample :
    (mainRun emptyWorld 4 Command.publishNext false).exit = 0 ∧
    (mainRun emptyWorld 4 Command.publishNext false).muts =
      [Mutation.createTag (("skillsets-v1.0.0-next.1").toList),
       Mutation.pushTag (("skillsets-v1.0.0-next.1").toList)] := by
  constructor
  · rfl
  · rfl

/-- C4 amended: errors from the Tag Source are absorbed, not propagated: a
failing page fetch ends the pagination loop with the tags collected from the
earlier pages (partial results), and a failing tag-existence lookup is treated
as the tag being absent. -/
theorem claim_error_absorption (w : World) (fuel n : Nat) (t : List Char)
    (h1 : 1 ≤ n)
    (hfull : ∀ i, 1 ≤ i → i < n →
      ∃ refs, w.pages i = some (GhResponse.jlist refs) ∧ refs.length = 100)
    (hfail : w.pages n = none) (hfuel : n ≤ fuel)
    (hlook : w.refLookup t = none) :
    list_tags w fuel = (List.range' 1 n).flatMap (pageExtract w) ∧
    tag_exists w t = false := by
  refine ⟨list_tags_pages w fuel n h1 hfull (Or.inl hfail) hfuel, ?_⟩
  simp [tag_exists, hlook]

/-- C4 amended witness: page 1 fails, so the listing is empty, and a failing
lookup reports the tag as absent. -/
theorem claim_error_absorption_witness :
    list_tags emptyWorld 4 = (List.range' 1 1).flatMap (pageExtract emptyWorld) ∧
    tag_exists emptyWorld (("skillsets-v1.0.0").toList) = false :=
  claim_error_absorption emptyWorld 4 1 (("skillsets-v1.0.0").toList)
    (by omega) (by intro i hi1 hi2; omega) rfl (by omega) rfl

/-- C5: for any publishing command (explicit version, stableRelease, or
devSnapshot), once a version is chosen, if the ref lookup for the chosen tag
name `skillsets-v{version}` succeeds (the tag exists) the run stops with exit
status 1, the `Tag ... already exists` error on stderr, and no tag creation or
push. -/
theorem claim_tag_already_exists (w : World) (fuel : Nat) (dry_run : Bool)
    (cmd : Command) (v : List Char)
    (hpub : cmd = Command.publishNext ∨ cmd = Command.publishRelease ∨
      ∃ ev, cmd = Command.explicitVersion ev)
    (hv : chosen_version w fuel cmd = Except.ok v)
    (hex : (w.refLookup (tagNamePre ++ v)).isSome = true) :
    mainRun w fuel cmd dry_run =
      ⟨1, [],
       [errLine (("Tag ").toList ++ (tagNamePre ++ v) ++ (" already exists").toList)],
       []⟩ := by
  have hflow : publish_flow w dry_run (Except.ok v) =
      ⟨1, [],
       [errLine (("Tag ").toList ++ (tagNamePre ++ v) ++ (" already exists").toList)],
       []⟩ := by
    simp only [publish_flow, tag_exists, hex, if_true]
  rcases hpub with h | h | ⟨ev, h⟩ <;> subst h <;>
    simp only [mainRun] <;> rw [hv] <;> exact hflow

/-- C5 witness: an explicit `--version 1.2.3` request in a world where the tag
ref exists fails with the already-exists error and performs no mutation. -/
theorem claim_tag_already_exists_witness :
    mainRun allTagsWorld 1 (Command.explicitVersion (("1.2.3").toList)) false =
      ⟨1, [],
       [errLine (("Tag ").toList ++ (tagNamePre ++ ("1.2.3").toList) ++ (" already exists").toList)],
       []⟩ :=
  claim_tag_already_exists allTagsWorld 1 false
    (Command.explicitVersion (("1.2.3").toList)) (("1.2.3").toList)
    (Or.inr (Or.inr ⟨("1.2.3").toList, rfl⟩)) rfl rfl

/-- C6: the pagination loop fetches sequentially with page size 100: full pages
(exactly 100 items) continue to the next page and a page with fewer than 100
items, an empty list, or a non-list response terminates it; the result
concatenates, in fetch order, the version strings of refs starting with the
tag-name prelude. -/
theorem claim_pagination (w : World) (fuel n : Nat) (h1 : 1 ≤ n)
    (hfull : ∀ i, 1 ≤ i → i < n →
      ∃ refs, w.pages i = some (GhResponse.jlist refs) ∧ refs.length = 100)
    (hterm : w.pages n = some GhResponse.other ∨
      ∃ refs, w.pages n = some (GhResponse.jlist refs) ∧ refs.length < 100)
    (hfuel : n ≤ fuel) :
    list_tags w fuel = (List.range' 1 n).flatMap (pageExtract w) :=
  list_tags_pages w fuel n h1 hfull (Or.inr hterm) hfuel

/-- C6 witness: a full first page (100 matching refs) forces the fetch of a
second page, whose single ref also lands in the result. -/
theorem claim_pagination_witness :
    list_tags twoPageWorld 3 = (List.range' 1 2).flatMap (pageExtract twoPageWorld) :=
  claim_pagination twoPageWorld 3 2 (by omega)
    (by
      intro i hi1 hi2
      have hi : i = 1 := by omega
      subst hi
      exact ⟨List.replicate 100 (("refs/tags/skillsets-v1.0.0").toList), rfl, by simp⟩)
    (Or.inr ⟨[("refs/tags/skillsets-v1.1.0").toList], rfl, by decide⟩)
    (by omega)

/-- C7: `parse_semver` succeeds exactly when the part of the input before the
first `-` splits into exactly three dot-separated components each parseable as
a Python integer; in particular `1.2` and `1.2.x` fail. -/
theorem claim_parse_semver_invalid :
    (∀ s : List Char, (parse_semver s).isOk = true ↔
      ∃ a b c, splitOnChar '.' (s.takeWhile (fun ch => ch != '-')) = [a, b, c] ∧
        (pyIntL a).isSome = true ∧ (pyIntL b).isSome = true ∧ (pyIntL c).isSome = true) ∧
    (parse_semver (("1.2").toList)).isOk = false ∧
    (parse_semver (("1.2.x").toList)).isOk = false := by
  refine ⟨?_, rfl, rfl⟩
  intro s
  constructor
  · intro h
    rcases (exceptIsOk_iff _).mp h with ⟨t, ht⟩
    obtain ⟨a0, b0, c0⟩ := t
    unfold parse_semver at ht
    split at ht
    case h_2 => exact absurd ht (by simp)
    case h_1 p0 p1 p2 heq =>
      split at ht
      case h_2 => exact absurd ht (by simp)
      case h_1 a1 b1 c1 hp0 hp1 hp2 =>
        refine ⟨p0, p1, p2, ?_, ?_, ?_, ?_⟩
        · rw [← splitOnChar_headD_takeWhile]
          exact heq
        · rw [hp0]; rfl
        · rw [hp1]; rfl
        · rw [hp2]; rfl
  · intro ⟨a, b, c, hsp, ha, hb, hc⟩
    have hsp2 : splitOnChar '.' ((splitOnChar '-' s).headD []) = [a, b, c] := by
      rw [splitOnChar_headD_takeWhile]
      exact hsp
    rcases Option.isSome_iff_exists.mp ha with ⟨na, hna⟩
    rcases Option.isSome_iff_exists.mp hb with ⟨nb, hnb⟩
    rcases Option.isSome_iff_exists.mp hc with ⟨nc, hnc⟩
    unfold parse_semver
    rw [hsp2]
    simp only [hna, hnb, hnc]
    rfl

/-- C8: parsing a canonically formatted `major.minor.patch` string succeeds and
formatting the parsed triple reproduces the identical string. -/
theorem claim_parse_format_roundtrip (s : List Char) (a b c : Int)
    (ha : 0 ≤ a) (hb : 0 ≤ b) (hc : 0 ≤ c) (hs : s = format_version a b c) :
    ∃ t, parse_semver s = Except.ok t ∧ format_version t.1 t.2.1 t.2.2 = s := by
  subst hs
  exact ⟨(a, b, c), parse_format ha hb hc, rfl⟩

/-- C8 witness: the round trip at the concrete string `1.2.3`. -/
theorem claim_parse_format_roundtrip_witness :
    ∃ t, parse_semver (("1.2.3").toList) = Except.ok t ∧
      format_version t.1 t.2.1 t.2.2 = ("1.2.3").toList :=
  claim_parse_format_roundtrip (("1.2.3").toList) 1 2 3
    (by decide) (by decide) (by decide) (by decide)

/-- C9 counterexample: on input `vv1.2.3`, stripping a single leading `v`
leaves `v1.2.3`, which the regex rejects — yet the code accepts the input,
returning `1.2.3`, because `lstrip("v")` removes every leading `v`. -/
theorem claim_explicit_strip_counterexample :
    matchVersionRe (stripOneLeadingV (("vv1.2.3").toList)) = false ∧
    validate_explicit (("vv1.2.3").toList) = Except.ok (("1.2.3").toList) := by
  constructor
  · rfl
  · rfl

/-- C9 amended: explicit-version validation strips all leading `v` characters
and then applies `re.match` with `^\d+\.\d+\.\d+(-[A-Za-z]+\.\d+)?$`
(characterized here by `VersionReSpec`, which includes Python's tolerance of
one trailing newline at `$`): on a match the stripped version is returned
unchanged, otherwise the run fails with the invalid-format error. -/
theorem claim_explicit_validation (v : List Char) :
    (VersionReSpec (v.dropWhile (fun c => c == 'v')) →
      validate_explicit v = Except.ok (v.dropWhile (fun c => c == 'v'))) ∧
    (¬ VersionReSpec (v.dropWhile (fun c => c == 'v')) →
      validate_explicit v =
        Except.error (("Invalid version format: ").toList ++
          v.dropWhile (fun c => c == 'v'))) := by
  constructor
  · intro h
    unfold validate_explicit
    rw [if_pos ((matchVersionRe_iff _).mpr h)]
  · intro h
    unfold validate_explicit
    rw [if_neg (fun hm => h ((matchVersionRe_iff _).mp hm))]

/-- C9 amended witness: `v1.2.3` validates to `1.2.3`, and — through the
trailing-newline tolerance of `$` — `v1.2.3\n` validates to `1.2.3\n`. -/
theorem claim_explicit_validation_witness :
    validate_explicit (("v1.2.3").toList) = Except.ok (("1.2.3").toList) ∧
    validate_explicit (("v1.2.3\n").toList) = Except.ok (("1.2.3\n").toList) :=
  ⟨(claim_explicit_validation (("v1.2.3").toList)).1
    (Or.inl ⟨("1").toList, ("2").toList, ("3").toList, ⟨by decide, by decide⟩,
      ⟨by decide, by decide⟩, ⟨by decide, by decide⟩, Or.inl (by decide)⟩),
   (claim_explicit_validation (("v1.2.3\n").toList)).1
    (Or.inr ⟨("1.2.3").toList, by decide,
      ⟨("1").toList, ("2").toList, ("3").toList, ⟨by decide, by decide⟩,
        ⟨by decide, by decide⟩, ⟨by decide, by decide⟩, Or.inl (by decide)⟩⟩)⟩

/-- C10: when no stable version exists among the fetched tags, the
`--get-latest-stable` query prints the literal `0.0.0` on stdout and exits
with status 0, performing no mutation. -/
theorem claim_latest_stable_query_prints_zero (w : World) (fuel : Nat)
    (dry_run : Bool) (h : stableTriples (list_tags w fuel) = []) :
    mainRun w fuel Command.getLatestStable dry_run =
      ⟨0, [("0.0.0").toList], [], []⟩ := by
  have hg : get_latest_release_version (list_tags w fuel) = none := by
    unfold get_latest_release_version
    rw [h]
  simp [mainRun, hg]

/-- C10 witness: in a world with no reachable tags the query prints `0.0.0`. -/
theorem claim_latest_stable_query_prints_zero_witness :
    mainRun emptyWorld 1 Command.getLatestStable false =
      ⟨0, [("0.0.0").toList], [], []⟩ :=
  claim_latest_stable_query_prints_zero emptyWorld 1 false rfl
